import Mathlib

/-!
Verification development for the obsidian-broken-links-cleaner plugin
(src/main.ts).  Document texts are modelled as lists of characters and the
JavaScript regex passes of the source are modelled as explicit left-to-right
scans with the greedy matching semantics of the source regexes.

The repository contains two revisions of main.ts; where they differ (the
`loadBrokenLinks` registry loader) both revisions are embedded.
-/

set_option linter.unusedVariables false

namespace BrokenLinksCleaner

/-- Models the JS character class `[^\]]` used in both link regexes. -/
def notRB (c : Char) : Bool := c != ']'

/-- Models the JS character class `[^\]|]` used in the alias-form regex. -/
def notRBP (c : Char) : Bool := c != ']' && c != '|'

/-- Models JS `\s` for the characters that occur in vault documents. -/
def isWs (c : Char) : Bool := c.isWhitespace

lemma notRB_iff {c : Char} : notRB c = true ↔ c ≠ ']' := by
  simp [notRB]

lemma notRBP_iff {c : Char} : notRBP c = true ↔ c ≠ ']' ∧ c ≠ '|' := by
  simp [notRBP]

/-- The full bracketed span `[[inner]]` for an interior text. -/
def rawOf (inner : List Char) : List Char := '[' :: '[' :: (inner ++ [']', ']'])

lemma rawOf_inj {a b : List Char} (h : rawOf a = rawOf b) : a = b := by
  simp only [rawOf, List.cons.injEq, true_and] at h
  exact List.append_left_injective _ h

lemma length_rawOf (i : List Char) : (rawOf i).length = i.length + 4 := by
  simp [rawOf]

/--
Matching the regex `\[\[([^\]]+)\]\]` at the head of the text: two opening
brackets, a greedy non-empty run of non-`]` characters, then `]]`.  Returns
the captured interior and the text after the match.  (Greedy matching with
this pattern is deterministic: shrinking the run would place a non-`]`
character where `\]` is required.)
-/
def matchPlainAt : List Char → Option (List Char × List Char)
  | c1 :: c2 :: rest =>
    if c1 = '[' ∧ c2 = '[' ∧ rest.takeWhile notRB ≠ [] ∧
        (rest.dropWhile notRB).take 2 = [']', ']'] then
      some (rest.takeWhile notRB, (rest.dropWhile notRB).drop 2)
    else none
  | _ => none

/--
Matching the regex `\[\[([^\]|]+)\|([^\]]+)\]\]` at the head of the text:
target part (no `]` or `|`), a pipe, display part (no `]`), then `]]`.
Returns target, display and the text after the match.
-/
def matchAliasAt : List Char → Option (List Char × List Char × List Char)
  | c1 :: c2 :: rest =>
    if c1 = '[' ∧ c2 = '[' ∧ rest.takeWhile notRBP ≠ [] ∧
        (rest.dropWhile notRBP).take 1 = ['|'] ∧
        ((rest.dropWhile notRBP).drop 1).takeWhile notRB ≠ [] ∧
        (((rest.dropWhile notRBP).drop 1).dropWhile notRB).take 2 = [']', ']'] then
      some (rest.takeWhile notRBP, ((rest.dropWhile notRBP).drop 1).takeWhile notRB,
        (((rest.dropWhile notRBP).drop 1).dropWhile notRB).drop 2)
    else none
  | _ => none

lemma matchPlainAt_build (i r : List Char) (hne : i ≠ []) (hi : ∀ c ∈ i, c ≠ ']') :
    matchPlainAt (rawOf i ++ r) = some (i, r) := by
  have hall : ∀ c ∈ i, notRB c = true := fun c hc => notRB_iff.mpr (hi c hc)
  have harr : (i ++ ([']', ']'] ++ r)) = i ++ ']' :: ']' :: r := by simp
  simp only [rawOf, List.cons_append, List.append_assoc, harr, matchPlainAt]
  rw [List.dropWhile_append_of_pos hall, List.takeWhile_append_of_pos hall]
  simp [List.dropWhile_cons, List.takeWhile_cons, notRB, hne]

lemma matchPlainAt_some {l i r : List Char} (h : matchPlainAt l = some (i, r)) :
    l = rawOf i ++ r ∧ i ≠ [] ∧ ∀ c ∈ i, c ≠ ']' := by
  match l with
  | [] => simp [matchPlainAt] at h
  | [c1] => simp [matchPlainAt] at h
  | c1 :: c2 :: rest =>
    simp only [matchPlainAt] at h
    split at h
    · rename_i hcond
      obtain ⟨hc1, hc2, hne, htake⟩ := hcond
      injection h with h
      injection h with h1 h2
      subst h1 h2 hc1 hc2
      refine ⟨?_, hne, ?_⟩
      · have key : rest.takeWhile notRB ++ (']' :: ']' :: (rest.dropWhile notRB).drop 2) =
            rest := by
          conv_rhs => rw [← List.takeWhile_append_dropWhile notRB rest]
          congr 1
          conv_rhs => rw [← List.take_append_drop 2 (rest.dropWhile notRB)]
          rw [htake]
          rfl
        simp only [rawOf, List.cons_append, List.append_assoc, List.cons.injEq, true_and]
        conv_lhs => rw [← key]
        simp
      · intro c hc
        exact notRB_iff.mp (List.mem_takeWhile_imp hc)
    · exact Option.noConfusion h

lemma matchAliasAt_build (a b r : List Char) (ha0 : a ≠ [])
    (ha : ∀ c ∈ a, c ≠ ']' ∧ c ≠ '|') (hb0 : b ≠ []) (hb : ∀ c ∈ b, c ≠ ']') :
    matchAliasAt (rawOf (a ++ '|' :: b) ++ r) = some (a, b, r) := by
  have hallA : ∀ c ∈ a, notRBP c = true := fun c hc => notRBP_iff.mpr (ha c hc)
  have hallB : ∀ c ∈ b, notRB c = true := fun c hc => notRB_iff.mpr (hb c hc)
  have harr : ((a ++ '|' :: b) ++ ([']', ']'] ++ r)) = a ++ '|' :: (b ++ ']' :: ']' :: r) := by
    simp
  simp only [rawOf, List.cons_append, List.append_assoc, harr, matchAliasAt]
  rw [List.dropWhile_append_of_pos hallA, List.takeWhile_append_of_pos hallA]
  have hpipe : notRBP '|' = false := by simp [notRBP]
  rw [List.takeWhile_cons, List.dropWhile_cons]
  simp only [hpipe, Bool.false_eq_true, if_neg, ite_false, List.append_nil]
  simp only [List.drop_succ_cons, List.drop_zero, List.take_succ_cons, List.take_zero]
  rw [List.dropWhile_append_of_pos hallB, List.takeWhile_append_of_pos hallB]
  simp [List.dropWhile_cons, List.takeWhile_cons, notRB, ha0, hb0]

lemma matchAliasAt_some {l a b r : List Char} (h : matchAliasAt l = some (a, b, r)) :
    l = rawOf (a ++ '|' :: b) ++ r ∧ a ≠ [] ∧ b ≠ [] ∧
      (∀ c ∈ a, c ≠ ']' ∧ c ≠ '|') ∧ ∀ c ∈ b, c ≠ ']' := by
  match l with
  | [] => simp [matchAliasAt] at h
  | [c1] => simp [matchAliasAt] at h
  | c1 :: c2 :: rest =>
    simp only [matchAliasAt] at h
    split at h
    · rename_i hcond
      obtain ⟨hc1, hc2, hne1, hp, hne2, htake⟩ := hcond
      injection h with h
      injection h with h1 h
      injection h with h2 h3
      subst h1 h2 h3 hc1 hc2
      refine ⟨?_, hne1, hne2, ?_, ?_⟩
      · have key : rest.takeWhile notRBP ++
            ('|' :: (((rest.dropWhile notRBP).drop 1).takeWhile notRB ++
              (']' :: ']' :: ((((rest.dropWhile notRBP).drop 1).dropWhile notRB).drop 2)))) =
            rest := by
          conv_rhs => rw [← List.takeWhile_append_dropWhile notRBP rest]
          congr 1
          conv_rhs => rw [← List.take_append_drop 1 (rest.dropWhile notRBP)]
          rw [hp]
          simp only [List.singleton_append, List.cons.injEq, true_and]
          conv_rhs =>
            rw [← List.takeWhile_append_dropWhile notRB ((rest.dropWhile notRBP).drop 1)]
          congr 1
          conv_rhs =>
            rw [← List.take_append_drop 2 (((rest.dropWhile notRBP).drop 1).dropWhile notRB)]
          rw [htake]
          rfl
        simp only [rawOf, List.cons_append, List.append_assoc, List.cons.injEq, true_and]
        conv_lhs => rw [← key]
        simp
      · intro c hc
        exact notRBP_iff.mp (List.mem_takeWhile_imp hc)
      · intro c hc
        exact notRB_iff.mp (List.mem_takeWhile_imp hc)
    · exact Option.noConfusion h

lemma matchPlainAt_none_head {c : Char} {cs : List Char} (h : c ≠ '[') :
    matchPlainAt (c :: cs) = none := by
  match cs with
  | [] => rfl
  | c2 :: rest => simp [matchPlainAt, h]

lemma matchAliasAt_none_head {c : Char} {cs : List Char} (h : c ≠ '[') :
    matchAliasAt (c :: cs) = none := by
  match cs with
  | [] => rfl
  | c2 :: rest => simp [matchAliasAt, h]

lemma matchPlainAt_lt {l i r : List Char} (h : matchPlainAt l = some (i, r)) :
    r.length < l.length := by
  obtain ⟨hl, hne, _⟩ := matchPlainAt_some h
  have : l.length = i.length + 4 + r.length := by
    rw [hl, List.length_append, length_rawOf]
  omega

lemma matchAliasAt_lt {l a b r : List Char} (h : matchAliasAt l = some (a, b, r)) :
    r.length < l.length := by
  obtain ⟨hl, _, _, _, _⟩ := matchAliasAt_some h
  have : l.length = (a ++ '|' :: b).length + 4 + r.length := by
    rw [hl, List.length_append, length_rawOf]
  omega

lemma matchAliasAt_pipe {l a b r : List Char} (h : matchAliasAt l = some (a, b, r)) :
    '|' ∈ l := by
  obtain ⟨hl, _, _, _, _⟩ := matchAliasAt_some h
  rw [hl]
  simp [rawOf]

/-!  The two substitution passes of `cleanBrokenWikilinks` (src/main.ts,
lines 138-158 / 699-719).  JS `String.replace` with a global regex scans the
original string left to right; replacement strings are never rescanned within
the same pass.  The scans are written with an explicit fuel argument (the
length of the text) so that they are structurally recursive. -/

/-- Replacement chosen by pass 1 for a matched alias-form link. -/
def aliasRep (brokenLinks : List (List Char)) (deleteText : Bool)
    (link disp : List Char) : List Char :=
  if rawOf link ∈ brokenLinks then (if deleteText then [] else disp)
  else rawOf (link ++ '|' :: disp)

/-- Replacement chosen by pass 2 for a matched plain-form link. -/
def plainRep (brokenLinks : List (List Char)) (deleteText : Bool)
    (inner : List Char) : List Char :=
  if rawOf inner ∈ brokenLinks then (if deleteText then [] else inner)
  else rawOf inner

def pass1Go (K : List (List Char)) (d : Bool) : Nat → List Char → List Char
  | _, [] => []
  | 0, l => l
  | n + 1, c :: cs =>
    match matchAliasAt (c :: cs) with
    | some (link, disp, rest) => aliasRep K d link disp ++ pass1Go K d n rest
    | none => c :: pass1Go K d n cs

def pass2Go (K : List (List Char)) (d : Bool) : Nat → List Char → List Char
  | _, [] => []
  | 0, l => l
  | n + 1, c :: cs =>
    match matchPlainAt (c :: cs) with
    | some (inner, rest) => plainRep K d inner ++ pass2Go K d n rest
    | none => c :: pass2Go K d n cs

/-- Pass 1 of the Rewriter: global replace of `\[\[([^\]|]+)\|([^\]]+)\]\]`. -/
def pass1 (K : List (List Char)) (d : Bool) (l : List Char) : List Char :=
  pass1Go K d l.length l

/-- Pass 2 of the Rewriter: global replace of `\[\[([^\]]+)\]\]`. -/
def pass2 (K : List (List Char)) (d : Bool) (l : List Char) : List Char :=
  pass2Go K d l.length l

/-- The interiors of the matches found by a global scan with the plain-form
regex `\[\[([^\]]+)\]\]`.  This is both the match list of pass 2 and the
link-occurrence extractor used by `scanAndGenerateBrokenLinks` and
`findOrphanFiles` (`content.match(/\[\[([^\]]+)\]\]/g)`). -/
def pass2MatchesGo : Nat → List Char → List (List Char)
  | _, [] => []
  | 0, _ => []
  | n + 1, c :: cs =>
    match matchPlainAt (c :: cs) with
    | some (inner, rest) => inner :: pass2MatchesGo n rest
    | none => pass2MatchesGo n cs

def pass2Matches (l : List Char) : List (List Char) := pass2MatchesGo l.length l

/-- The (target, display) pairs of the matches found by pass 1's scan. -/
def pass1MatchesGo : Nat → List Char → List (List Char × List Char)
  | _, [] => []
  | 0, _ => []
  | n + 1, c :: cs =>
    match matchAliasAt (c :: cs) with
    | some (link, disp, rest) => (link, disp) :: pass1MatchesGo n rest
    | none => pass1MatchesGo n cs

def pass1Matches (l : List Char) : List (List Char × List Char) :=
  pass1MatchesGo l.length l

lemma pass1Go_stable (K : List (List Char)) (d : Bool) :
    ∀ n m l, l.length ≤ n → l.length ≤ m → pass1Go K d n l = pass1Go K d m l := by
  intro n
  induction n with
  | zero =>
    intro m l hn hm
    match l with
    | [] => cases m <;> rfl
    | c :: cs => simp at hn
  | succ n ih =>
    intro m l hn hm
    match l with
    | [] => cases m <;> rfl
    | c :: cs =>
      match m with
      | 0 => simp at hm
      | m + 1 =>
        match hma : matchAliasAt (c :: cs) with
        | some (link, disp, rest) =>
          have hlt := matchAliasAt_lt hma
          simp only [List.length_cons] at hn hm hlt
          simp only [pass1Go, hma]
          rw [ih m rest (by omega) (by omega)]
        | none =>
          simp only [List.length_cons] at hn hm
          simp only [pass1Go, hma]
          rw [ih m cs (by omega) (by omega)]

lemma pass2Go_stable (K : List (List Char)) (d : Bool) :
    ∀ n m l, l.length ≤ n → l.length ≤ m → pass2Go K d n l = pass2Go K d m l := by
  intro n
  induction n with
  | zero =>
    intro m l hn hm
    match l with
    | [] => cases m <;> rfl
    | c :: cs => simp at hn
  | succ n ih =>
    intro m l hn hm
    match l with
    | [] => cases m <;> rfl
    | c :: cs =>
      match m with
      | 0 => simp at hm
      | m + 1 =>
        match hma : matchPlainAt (c :: cs) with
        | some (inner, rest) =>
          have hlt := matchPlainAt_lt hma
          simp only [List.length_cons] at hn hm hlt
          simp only [pass2Go, hma]
          rw [ih m rest (by omega) (by omega)]
        | none =>
          simp only [List.length_cons] at hn hm
          simp only [pass2Go, hma]
          rw [ih m cs (by omega) (by omega)]

lemma pass2MatchesGo_stable :
    ∀ n m l, l.length ≤ n → l.length ≤ m → pass2MatchesGo n l = pass2MatchesGo m l := by
  intro n
  induction n with
  | zero =>
    intro m l hn hm
    match l with
    | [] => cases m <;> rfl
    | c :: cs => simp at hn
  | succ n ih =>
    intro m l hn hm
    match l with
    | [] => cases m <;> rfl
    | c :: cs =>
      match m with
      | 0 => simp at hm
      | m + 1 =>
        match hma : matchPlainAt (c :: cs) with
        | some (inner, rest) =>
          have hlt := matchPlainAt_lt hma
          simp only [List.length_cons] at hn hm hlt
          simp only [pass2MatchesGo, hma]
          rw [ih m rest (by omega) (by omega)]
        | none =>
          simp only [List.length_cons] at hn hm
          simp only [pass2MatchesGo, hma]
          rw [ih m cs (by omega) (by omega)]

lemma pass1MatchesGo_stable :
    ∀ n m l, l.length ≤ n → l.length ≤ m → pass1MatchesGo n l = pass1MatchesGo m l := by
  intro n
  induction n with
  | zero =>
    intro m l hn hm
    match l with
    | [] => cases m <;> rfl
    | c :: cs => simp at hn
  | succ n ih =>
    intro m l hn hm
    match l with
    | [] => cases m <;> rfl
    | c :: cs =>
      match m with
      | 0 => simp at hm
      | m + 1 =>
        match hma : matchAliasAt (c :: cs) with
        | some (link, disp, rest) =>
          have hlt := matchAliasAt_lt hma
          simp only [List.length_cons] at hn hm hlt
          simp only [pass1MatchesGo, hma]
          rw [ih m rest (by omega) (by omega)]
        | none =>
          simp only [List.length_cons] at hn hm
          simp only [pass1MatchesGo, hma]
          rw [ih m cs (by omega) (by omega)]

lemma pass1_nil (K : List (List Char)) (d : Bool) : pass1 K d [] = [] := rfl

lemma pass1_cons_some {c : Char} {cs link disp rest : List Char}
    (K : List (List Char)) (d : Bool)
    (h : matchAliasAt (c :: cs) = some (link, disp, rest)) :
    pass1 K d (c :: cs) = aliasRep K d link disp ++ pass1 K d rest := by
  have hlt := matchAliasAt_lt h
  simp only [List.length_cons] at hlt
  simp only [pass1, List.length_cons, pass1Go, h]
  rw [pass1Go_stable K d cs.length rest.length rest (by omega) (le_refl _)]

lemma pass1_cons_none {c : Char} {cs : List Char} (K : List (List Char)) (d : Bool)
    (h : matchAliasAt (c :: cs) = none) :
    pass1 K d (c :: cs) = c :: pass1 K d cs := by
  simp only [pass1, List.length_cons, pass1Go, h]

lemma pass2_nil (K : List (List Char)) (d : Bool) : pass2 K d [] = [] := rfl

lemma pass2_cons_some {c : Char} {cs inner rest : List Char}
    (K : List (List Char)) (d : Bool)
    (h : matchPlainAt (c :: cs) = some (inner, rest)) :
    pass2 K d (c :: cs) = plainRep K d inner ++ pass2 K d rest := by
  have hlt := matchPlainAt_lt h
  simp only [List.length_cons] at hlt
  simp only [pass2, List.length_cons, pass2Go, h]
  rw [pass2Go_stable K d cs.length rest.length rest (by omega) (le_refl _)]

lemma pass2_cons_none {c : Char} {cs : List Char} (K : List (List Char)) (d : Bool)
    (h : matchPlainAt (c :: cs) = none) :
    pass2 K d (c :: cs) = c :: pass2 K d cs := by
  simp only [pass2, List.length_cons, pass2Go, h]

lemma pass2Matches_nil : pass2Matches [] = [] := rfl

lemma pass2Matches_cons_some {c : Char} {cs inner rest : List Char}
    (h : matchPlainAt (c :: cs) = some (inner, rest)) :
    pass2Matches (c :: cs) = inner :: pass2Matches rest := by
  have hlt := matchPlainAt_lt h
  simp only [List.length_cons] at hlt
  simp only [pass2Matches, List.length_cons, pass2MatchesGo, h]
  rw [pass2MatchesGo_stable cs.length rest.length rest (by omega) (le_refl _)]

lemma pass2Matches_cons_none {c : Char} {cs : List Char}
    (h : matchPlainAt (c :: cs) = none) :
    pass2Matches (c :: cs) = pass2Matches cs := by
  simp only [pass2Matches, List.length_cons, pass2MatchesGo, h]

lemma pass1Matches_nil : pass1Matches [] = [] := rfl

lemma pass1Matches_cons_some {c : Char} {cs link disp rest : List Char}
    (h : matchAliasAt (c :: cs) = some (link, disp, rest)) :
    pass1Matches (c :: cs) = (link, disp) :: pass1Matches rest := by
  have hlt := matchAliasAt_lt h
  simp only [List.length_cons] at hlt
  simp only [pass1Matches, List.length_cons, pass1MatchesGo, h]
  rw [pass1MatchesGo_stable cs.length rest.length rest (by omega) (le_refl _)]

lemma pass1Matches_cons_none {c : Char} {cs : List Char}
    (h : matchAliasAt (c :: cs) = none) :
    pass1Matches (c :: cs) = pass1Matches cs := by
  simp only [pass1Matches, List.length_cons, pass1MatchesGo, h]

/-- `cleanBrokenWikilinks` (src/main.ts lines 138-158, identical at 699-719):
pass 1 rewrites alias-form links whose `[[target]]` is a registered broken
key, then pass 2 rewrites plain-form spans whose full `[[...]]` text is a
registered broken key. -/
def cleanBrokenWikilinks (text : List Char) (brokenLinks : List (List Char))
    (deleteText : Bool) : List Char :=
  pass2 brokenLinks deleteText (pass1 brokenLinks deleteText text)

/-- The Rewriter contract of the specification:
`clean(documentText, brokenKeys, deleteCompletely) -> (newText, changed)`,
with `changed` true iff the output differs from the input. -/
def cleanPair (text : List Char) (brokenLinks : List (List Char))
    (deleteText : Bool) : List Char × Bool :=
  (cleanBrokenWikilinks text brokenLinks deleteText,
    decide (cleanBrokenWikilinks text brokenLinks deleteText ≠ text))

lemma matchPlainAt_rb {l : List Char} {i r : List Char}
    (h : matchPlainAt l = some (i, r)) : ']' ∈ l := by
  obtain ⟨hl, _, _⟩ := matchPlainAt_some h
  rw [hl]
  simp [rawOf]

lemma pass1_append_noLB {A : List Char} (hA : ∀ c ∈ A, c ≠ '[')
    (K : List (List Char)) (d : Bool) (X : List Char) :
    pass1 K d (A ++ X) = A ++ pass1 K d X := by
  induction A with
  | nil => simp
  | cons a A ih =>
    have ha : a ≠ '[' := hA a (by simp)
    rw [List.cons_append, pass1_cons_none K d (matchAliasAt_none_head ha),
      ih (fun c hc => hA c (by simp [hc])), List.cons_append]

lemma pass2_append_noLB {A : List Char} (hA : ∀ c ∈ A, c ≠ '[')
    (K : List (List Char)) (d : Bool) (X : List Char) :
    pass2 K d (A ++ X) = A ++ pass2 K d X := by
  induction A with
  | nil => simp
  | cons a A ih =>
    have ha : a ≠ '[' := hA a (by simp)
    rw [List.cons_append, pass2_cons_none K d (matchPlainAt_none_head ha),
      ih (fun c hc => hA c (by simp [hc])), List.cons_append]

lemma pass2Matches_append_noLB {A : List Char} (hA : ∀ c ∈ A, c ≠ '[')
    (X : List Char) : pass2Matches (A ++ X) = pass2Matches X := by
  induction A with
  | nil => simp
  | cons a A ih =>
    have ha : a ≠ '[' := hA a (by simp)
    rw [List.cons_append, pass2Matches_cons_none (matchPlainAt_none_head ha),
      ih (fun c hc => hA c (by simp [hc]))]

/-- A text with no pipe character contains no alias-form match, so pass 1
leaves it unchanged. -/
lemma pass1_nopipe {l : List Char} (h : '|' ∉ l) (K : List (List Char)) (d : Bool) :
    pass1 K d l = l := by
  induction l with
  | nil => rfl
  | cons c cs ih =>
    match hma : matchAliasAt (c :: cs) with
    | some (link, disp, rest) => exact absurd (matchAliasAt_pipe hma) h
    | none =>
      rw [pass1_cons_none K d hma, ih (fun hc => h (by simp [hc]))]

/-- A text with no `]` character contains no plain-form match, so pass 2
leaves it unchanged. -/
lemma pass2_noRB {l : List Char} (h : ']' ∉ l) (K : List (List Char)) (d : Bool) :
    pass2 K d l = l := by
  induction l with
  | nil => rfl
  | cons c cs ih =>
    match hma : matchPlainAt (c :: cs) with
    | some (inner, rest) => exact absurd (matchPlainAt_rb hma) h
    | none =>
      rw [pass2_cons_none K d hma, ih (fun hc => h (by simp [hc]))]

lemma pass1_id_aux (K : List (List Char)) (d : Bool) :
    ∀ n l, l.length ≤ n → (∀ m ∈ pass1Matches l, rawOf m.1 ∉ K) →
      pass1 K d l = l := by
  intro n
  induction n with
  | zero =>
    intro l hn _
    match l with
    | [] => rfl
    | c :: cs => simp at hn
  | succ n ih =>
    intro l hn hK
    match l with
    | [] => rfl
    | c :: cs =>
      match hma : matchAliasAt (c :: cs) with
      | some (link, disp, rest) =>
        have hlt := matchAliasAt_lt hma
        obtain ⟨hl, _, _, _, _⟩ := matchAliasAt_some hma
        have hmem : (link, disp) ∈ pass1Matches (c :: cs) := by
          rw [pass1Matches_cons_some hma]; simp
        have hsub : ∀ m ∈ pass1Matches rest, rawOf m.1 ∉ K := by
          intro m hm
          exact hK m (by rw [pass1Matches_cons_some hma]; simp [hm])
        have hnot : rawOf link ∉ K := hK (link, disp) hmem
        rw [pass1_cons_some K d hma, aliasRep, if_neg hnot,
          ih rest (by simp only [List.length_cons] at hn hlt; omega) hsub, ← hl]
      | none =>
        have hsub : ∀ m ∈ pass1Matches cs, rawOf m.1 ∉ K := by
          intro m hm
          exact hK m (by rw [pass1Matches_cons_none hma]; exact hm)
        rw [pass1_cons_none K d hma,
          ih cs (by simp only [List.length_cons] at hn; omega) hsub]

/-- If no alias-form match of the text has its `[[target]]` key in the broken
set, pass 1 is the identity. -/
lemma pass1_id {l : List Char} {K : List (List Char)} (d : Bool)
    (hK : ∀ m ∈ pass1Matches l, rawOf m.1 ∉ K) : pass1 K d l = l :=
  pass1_id_aux K d l.length l (le_refl _) hK

lemma pass2_id_aux (K : List (List Char)) (d : Bool) :
    ∀ n l, l.length ≤ n → (∀ i ∈ pass2Matches l, rawOf i ∉ K) →
      pass2 K d l = l := by
  intro n
  induction n with
  | zero =>
    intro l hn _
    match l with
    | [] => rfl
    | c :: cs => simp at hn
  | succ n ih =>
    intro l hn hK
    match l with
    | [] => rfl
    | c :: cs =>
      match hma : matchPlainAt (c :: cs) with
      | some (inner, rest) =>
        have hlt := matchPlainAt_lt hma
        obtain ⟨hl, _, _⟩ := matchPlainAt_some hma
        have hmem : inner ∈ pass2Matches (c :: cs) := by
          rw [pass2Matches_cons_some hma]; simp
        have hsub : ∀ i ∈ pass2Matches rest, rawOf i ∉ K := by
          intro i hi
          exact hK i (by rw [pass2Matches_cons_some hma]; simp [hi])
        have hnot : rawOf inner ∉ K := hK inner hmem
        rw [pass2_cons_some K d hma, plainRep, if_neg hnot,
          ih rest (by simp only [List.length_cons] at hn hlt; omega) hsub, ← hl]
      | none =>
        have hsub : ∀ i ∈ pass2Matches cs, rawOf i ∉ K := by
          intro i hi
          exact hK i (by rw [pass2Matches_cons_none hma]; exact hi)
        rw [pass2_cons_none K d hma,
          ih cs (by simp only [List.length_cons] at hn; omega) hsub]

/-- If no plain-form match of the text has its full `[[...]]` span in the
broken set, pass 2 is the identity. -/
lemma pass2_id {l : List Char} {K : List (List Char)} (d : Bool)
    (hK : ∀ i ∈ pass2Matches l, rawOf i ∉ K) : pass2 K d l = l :=
  pass2_id_aux K d l.length l (le_refl _) hK

/-! The storage collaborator.  Reading a path can fail (`content p = none`
models a read that throws); writing can fail (`canWrite p = false` models a
write that throws).  `writes` logs every performed `vault.modify` call. -/

structure Vault where
  files : List String
  content : String → Option (List Char)
  canWrite : String → Bool
  writes : List (String × List Char)

def vaultModify (v : Vault) (p : String) (s : List Char) : Vault :=
  { v with
    content := fun q => if q = p then some s else v.content q
    writes := v.writes ++ [(p, s)] }

/-- `cleanFile` (src/main.ts lines 160-174): read, clean, write back only if
the content changed; any thrown error is caught and reported as `false`. -/
def cleanFile (v : Vault) (path : String) (brokenLinks : List (List Char))
    (deleteText : Bool) : Bool × Vault :=
  match v.content path with
  | none => (false, v)
  | some text =>
    if cleanBrokenWikilinks text brokenLinks deleteText = text then (false, v)
    else if v.canWrite path then
      (true, vaultModify v path (cleanBrokenWikilinks text brokenLinks deleteText))
    else (false, v)

/-- The per-file loop of `cleanAllFiles` (src/main.ts lines 200-220). -/
def cleanAllFilesGo (brokenLinks : List (List Char)) (deleteText : Bool) :
    Vault → List String → Nat × Vault
  | v, [] => (0, v)
  | v, p :: ps =>
    let r := cleanFile v p brokenLinks deleteText
    let tailRes := cleanAllFilesGo brokenLinks deleteText r.2 ps
    ((if r.1 then 1 else 0) + tailRes.1, tailRes.2)

def cleanAllFiles (v : Vault) (brokenLinks : List (List Char))
    (deleteText : Bool) : Nat × Vault :=
  cleanAllFilesGo brokenLinks deleteText v v.files

lemma cleanAllFilesGo_append (K : List (List Char)) (d : Bool) (v : Vault)
    (xs ys : List String) :
    cleanAllFilesGo K d v (xs ++ ys) =
      ((cleanAllFilesGo K d v xs).1 +
        (cleanAllFilesGo K d (cleanAllFilesGo K d v xs).2 ys).1,
       (cleanAllFilesGo K d (cleanAllFilesGo K d v xs).2 ys).2) := by
  induction xs generalizing v with
  | nil => simp [cleanAllFilesGo]
  | cons p ps ih =>
    simp only [List.cons_append, cleanAllFilesGo, List.append_eq]
    rw [ih ((cleanFile v p K d).2)]
    simp [Nat.add_assoc]

/-! The Broken-Link Registry loader.  Both revisions of `loadBrokenLinks`
are embedded: `loadBrokenLinks` models lines 98-136 of the first revision
(report-format regex, then list regex, with blank/heading lines skipped) and
`loadBrokenLinksAlt` models lines 661-697 of the second revision (list
regex, then first bracket of the line when it does not contain " in "). -/

/-- `content.split('\n')`. -/
def splitLines : List Char → List (List Char)
  | [] => [[]]
  | c :: cs =>
    if c = '\n' then [] :: splitLines cs
    else
      match splitLines cs with
      | [] => [[c]]
      | l :: ls => (c :: l) :: ls

/-- JS `String.trim()` on the characters occurring in vault documents. -/
def trimChars (l : List Char) : List Char :=
  ((l.dropWhile isWs).reverse.dropWhile isWs).reverse

/-- The skip test of the first-revision loader:
`line.trim().startsWith('#') || line.trim().length === 0`. -/
def skipLine (line : List Char) : Bool :=
  match trimChars line with
  | [] => true
  | c :: _ => c == '#'

/-- The character class `[\s-]` of the two loader regexes. -/
def wsDashB (c : Char) : Bool := isWs c || c == '-'

/-- The capture of `listRegex = /^[\s-]*(\[\[[^\]]+\]\])/`.  The prefix
`[\s-]*` deterministically consumes the maximal run of whitespace/dashes
(no shorter run can be followed by `[`), then the bracket pattern must
match immediately. -/
def listCapture (line : List Char) : Option (List Char) :=
  match matchPlainAt (line.dropWhile wsDashB) with
  | some (inner, _) => some (rawOf inner)
  | none => none

/-- The suffix requirement `\s+in\s+\[\[` of `reportFormatRegex`. -/
def reportSuffixOk (after : List Char) : Bool :=
  !(after.takeWhile isWs).isEmpty &&
    (match after.dropWhile isWs with
     | c1 :: c2 :: rest =>
       c1 == 'i' && c2 == 'n' && !(rest.takeWhile isWs).isEmpty &&
         (match rest.dropWhile isWs with
          | d1 :: d2 :: _ => d1 == '[' && d2 == '['
          | _ => false)
     | _ => false)

/-- The capture of
`reportFormatRegex = /^[\s-]*(\[\[[^\]]+\]\])\s+in\s+\[\[/`. -/
def reportCapture (line : List Char) : Option (List Char) :=
  match matchPlainAt (line.dropWhile wsDashB) with
  | some (inner, after) =>
    if reportSuffixOk after then some (rawOf inner) else none
  | none => none

/-- The key the first-revision loader extracts from one line. -/
def lineKeyV1 (line : List Char) : Option (List Char) :=
  if skipLine line then none
  else
    match reportCapture line with
    | some k => some k
    | none => listCapture line

/-- First-revision `loadBrokenLinks` (lines 98-136), as the list of keys
added to the set in line order. -/
def loadBrokenLinks (content : List Char) : List (List Char) :=
  (splitLines content).filterMap lineKeyV1

/-- JS `String.includes`. -/
def isSubstr (pat : List Char) : List Char → Bool
  | [] => pat.isEmpty
  | c :: cs => pat.isPrefixOf (c :: cs) || isSubstr pat cs

/-- The interior of the first (leftmost) `\[\[([^\]]+)\]\]` match of a line:
`line.match(/\[\[([^\]]+)\]\]/)`. -/
def firstBracketInner (line : List Char) : Option (List Char) :=
  (pass2Matches line).head?

/-- The key the second-revision loader extracts from one line. -/
def lineKeyV2 (line : List Char) : Option (List Char) :=
  match listCapture line with
  | some k => some k
  | none =>
    match firstBracketInner line with
    | some inner =>
      if isSubstr (' ' :: 'i' :: 'n' :: [' ']) line then none
      else some (rawOf inner)
    | none => none

/-- Second-revision `loadBrokenLinks` (lines 661-697). -/
def loadBrokenLinksAlt (content : List Char) : List (List Char) :=
  (splitLines content).filterMap lineKeyV2

/-! The Vault Scanner's key formation
(`link.slice(2, -2).split('|')[0].trim()`, src/main.ts line 309) and the
report document it writes (lines 336-340). -/

/-- JS `s.split('|')[0]`: the part of the interior before the first pipe. -/
def splitPipe (inner : List Char) : List Char :=
  inner.takeWhile (fun c => c != '|')

/-- The normalized link text of a scanned occurrence. -/
def scanLinkText (inner : List Char) : List Char := trimChars (splitPipe inner)

/-- The Broken Link Key the scan files an occurrence under. -/
def scanKey (inner : List Char) : List Char := rawOf (scanLinkText inner)

/-- `", "`-join used for the reference list of one report line. -/
def joinCommaSp : List (List Char) → List Char
  | [] => []
  | [x] => x
  | x :: xs => x ++ ',' :: ' ' :: joinCommaSp xs

/-- One report line `- ${link} in ${files.map(p => `[[${p}]]`).join(', ')}`. -/
def renderEntryLine (e : List Char × List (List Char)) : List Char :=
  '-' :: ' ' :: (e.1 ++ ' ' :: 'i' :: 'n' :: ' ' :: joinCommaSp (e.2.map rawOf))

/-- The lines of the generated report document (src/main.ts lines 336-340). -/
def reportLines (stamp : List Char) (nB nC : Nat)
    (entries : List (List Char × List (List Char))) : List (List Char) :=
  ["# Broken links report".toList, [],
   "Generated: ".toList ++ stamp,
   "Total broken links: ".toList ++ (toString nB).toList,
   "Total links checked: ".toList ++ (toString nC).toList,
   [], "## Broken links:".toList] ++
    ([] :: entries.map renderEntryLine)

/-- The full report content: every line is emitted followed by `'\n'`. -/
def reportContent (stamp : List Char) (nB nC : Nat)
    (entries : List (List Char × List (List Char))) : List Char :=
  ((reportLines stamp nB nC entries).map (fun l => l ++ ['\n'])).flatten

/-! `findOrphanFiles` (src/main.ts lines 226-263).  The host resolver
`metadataCache.getFirstLinkpathDest(linkText, sourcePath)` is an external
collaborator, modelled as a function from link text and source path to an
optional target path. -/

structure MDFile where
  path : String
  content : List Char
deriving DecidableEq

/-- All resolver-resolved targets of all link occurrences of all files: the
key set of the `allLinks` map. -/
def resolvedTargets (resolve : List Char → String → Option String)
    (files : List MDFile) : List String :=
  files.flatMap fun f =>
    (pass2Matches f.content).filterMap fun inner => resolve (splitPipe inner) f.path

/-- The orphan list: files whose path was never recorded as a target. -/
def findOrphanFiles (resolve : List Char → String → Option String)
    (files : List MDFile) : List MDFile :=
  files.filter fun f => decide (f.path ∉ resolvedTargets resolve files)

/-! Well-formed texts, used for the idempotence analysis of the Rewriter.
A well-formed text is a concatenation of bracket-free segments and links
`[[t]]` / `[[t|d]]` whose target and display contain none of `[`, `]`, `|`. -/

def cleanChar (c : Char) : Prop := c ≠ '[' ∧ c ≠ ']' ∧ c ≠ '|'

inductive Item where
  | seg (s : List Char)
  | link (t : List Char)
  | alink (t d : List Char)

def Item.render : Item → List Char
  | .seg s => s
  | .link t => rawOf t
  | .alink t d => rawOf (t ++ '|' :: d)

def renderItems (items : List Item) : List Char :=
  (items.map Item.render).flatten

def ItemWF : Item → Prop
  | .seg s => ∀ c ∈ s, c ≠ '[' ∧ c ≠ ']'
  | .link t => t ≠ [] ∧ ∀ c ∈ t, cleanChar c
  | .alink t d => t ≠ [] ∧ d ≠ [] ∧ (∀ c ∈ t, cleanChar c) ∧ ∀ c ∈ d, cleanChar c

def pass1Item (K : List (List Char)) (d : Bool) : Item → Item
  | .seg s => .seg s
  | .link t => .link t
  | .alink t disp => if rawOf t ∈ K then .seg (if d then [] else disp) else .alink t disp

def pass2Item (K : List (List Char)) (d : Bool) : Item → Item
  | .seg s => .seg s
  | .link t => if rawOf t ∈ K then .seg (if d then [] else t) else .link t
  | .alink t disp =>
    if rawOf (t ++ '|' :: disp) ∈ K then .seg (if d then [] else t ++ '|' :: disp)
    else .alink t disp

def cleanItem (K : List (List Char)) (d : Bool) (i : Item) : Item :=
  pass2Item K d (pass1Item K d i)

lemma pass1Item_wf {K : List (List Char)} {d : Bool} {i : Item} (h : ItemWF i) :
    ItemWF (pass1Item K d i) := by
  cases i with
  | seg s => exact h
  | link t => exact h
  | alink t disp =>
    obtain ⟨ht0, hd0, ht, hd⟩ := h
    simp only [pass1Item]
    split
    · split
      · intro c hc; simp at hc
      · intro c hc; exact ⟨(hd c hc).1, (hd c hc).2.1⟩
    · exact ⟨ht0, hd0, ht, hd⟩

lemma pass2Item_wf {K : List (List Char)} {d : Bool} {i : Item} (h : ItemWF i) :
    ItemWF (pass2Item K d i) := by
  cases i with
  | seg s => exact h
  | link t =>
    obtain ⟨ht0, ht⟩ := h
    simp only [pass2Item]
    split
    · split
      · intro c hc; simp at hc
      · intro c hc; exact ⟨(ht c hc).1, (ht c hc).2.1⟩
    · exact ⟨ht0, ht⟩
  | alink t disp =>
    obtain ⟨ht0, hd0, ht, hd⟩ := h
    simp only [pass2Item]
    split
    · split
      · intro c hc; simp at hc
      · intro c hc
        simp only [List.mem_append, List.mem_cons] at hc
        rcases hc with hc | rfl | hc
        · exact ⟨(ht c hc).1, (ht c hc).2.1⟩
        · exact ⟨by decide, by decide⟩
        · exact ⟨(hd c hc).1, (hd c hc).2.1⟩
    · exact ⟨ht0, hd0, ht, hd⟩

lemma cleanItem_wf {K : List (List Char)} {d : Bool} {i : Item} (h : ItemWF i) :
    ItemWF (cleanItem K d i) := pass2Item_wf (pass1Item_wf h)

lemma pass1_at_alias {a b : List Char} (K : List (List Char)) (d : Bool)
    (X : List Char) (ha0 : a ≠ []) (ha : ∀ c ∈ a, c ≠ ']' ∧ c ≠ '|')
    (hb0 : b ≠ []) (hb : ∀ c ∈ b, c ≠ ']') :
    pass1 K d (rawOf (a ++ '|' :: b) ++ X) = aliasRep K d a b ++ pass1 K d X := by
  have h := matchAliasAt_build a b X ha0 ha hb0 hb
  exact pass1_cons_some K d h

lemma pass2_at_plain {i : List Char} (K : List (List Char)) (d : Bool)
    (X : List Char) (h0 : i ≠ []) (hi : ∀ c ∈ i, c ≠ ']') :
    pass2 K d (rawOf i ++ X) = plainRep K d i ++ pass2 K d X := by
  have h := matchPlainAt_build i X h0 hi
  exact pass2_cons_some K d h

lemma pass1_at_link {t : List Char} (K : List (List Char)) (d : Bool)
    (X : List Char) (ht0 : t ≠ []) (ht : ∀ c ∈ t, cleanChar c) :
    pass1 K d (rawOf t ++ X) = rawOf t ++ pass1 K d X := by
  have hall : ∀ c ∈ t, notRBP c = true := fun c hc =>
    notRBP_iff.mpr ⟨(ht c hc).2.1, (ht c hc).2.2⟩
  have harr : (t ++ ([']', ']'] ++ X)) = t ++ ']' :: ']' :: X := by simp
  have harr2 : rawOf t ++ X = '[' :: '[' :: (t ++ ']' :: ']' :: X) := by
    simp [rawOf]
  rw [harr2]
  have hnone0 : matchAliasAt ('[' :: '[' :: (t ++ ']' :: ']' :: X)) = none := by
    simp only [matchAliasAt]
    rw [List.dropWhile_append_of_pos hall]
    simp [List.dropWhile_cons, notRBP]
  rw [pass1_cons_none K d hnone0]
  have hnone1 : matchAliasAt ('[' :: (t ++ ']' :: ']' :: X)) = none := by
    match t, ht0 with
    | t0 :: ts, _ =>
      have : t0 ≠ '[' := (ht t0 (by simp)).1
      simp only [List.cons_append]
      match hx : ts ++ ']' :: ']' :: X with
      | [] => simp at hx
      | y :: ys => simp [matchAliasAt, this]
  rw [pass1_cons_none K d hnone1]
  have tail : pass1 K d (t ++ ']' :: ']' :: X) = (t ++ [']', ']']) ++ pass1 K d X := by
    have he : t ++ ']' :: ']' :: X = (t ++ [']', ']']) ++ X := by simp
    rw [he]
    exact pass1_append_noLB
      (by
        intro c hc
        simp only [List.mem_append] at hc
        rcases hc with hc | hc
        · exact (ht c hc).1
        · simp at hc
          rcases hc with rfl | rfl
          all_goals decide)
      K d X
  rw [tail]
  simp [rawOf]

lemma renderItems_nil : renderItems [] = [] := rfl

lemma renderItems_cons (i : Item) (items : List Item) :
    renderItems (i :: items) = i.render ++ renderItems items := by
  simp [renderItems]

lemma pass1_render (K : List (List Char)) (d : Bool) (items : List Item)
    (hwf : ∀ i ∈ items, ItemWF i) :
    pass1 K d (renderItems items) = renderItems (items.map (pass1Item K d)) := by
  induction items with
  | nil => rfl
  | cons i items ih =>
    have hwf_i : ItemWF i := hwf i (by simp)
    have hwf_t : ∀ j ∈ items, ItemWF j := fun j hj => hwf j (by simp [hj])
    rw [List.map_cons, renderItems_cons, renderItems_cons]
    cases i with
    | seg s =>
      have hs : ∀ c ∈ s, c ≠ '[' := fun c hc => (hwf_i c hc).1
      rw [show Item.render (Item.seg s) = s from rfl, pass1_append_noLB hs K d,
        ih hwf_t]
      rfl
    | link t =>
      obtain ⟨ht0, ht⟩ := hwf_i
      rw [show Item.render (Item.link t) = rawOf t from rfl,
        pass1_at_link K d _ ht0 ht, ih hwf_t]
      rfl
    | alink t disp =>
      obtain ⟨ht0, hd0, ht, hd⟩ := hwf_i
      rw [show Item.render (Item.alink t disp) = rawOf (t ++ '|' :: disp) from rfl,
        pass1_at_alias K d _ ht0 (fun c hc => ⟨(ht c hc).2.1, (ht c hc).2.2⟩)
          hd0 (fun c hc => (hd c hc).2.1), ih hwf_t]
      by_cases hK : rawOf t ∈ K
      · simp [aliasRep, pass1Item, hK, Item.render]
      · simp [aliasRep, pass1Item, hK, Item.render]

lemma pass2_render (K : List (List Char)) (d : Bool) (items : List Item)
    (hwf : ∀ i ∈ items, ItemWF i) :
    pass2 K d (renderItems items) = renderItems (items.map (pass2Item K d)) := by
  induction items with
  | nil => rfl
  | cons i items ih =>
    have hwf_i : ItemWF i := hwf i (by simp)
    have hwf_t : ∀ j ∈ items, ItemWF j := fun j hj => hwf j (by simp [hj])
    rw [List.map_cons, renderItems_cons, renderItems_cons]
    cases i with
    | seg s =>
      have hs : ∀ c ∈ s, c ≠ '[' := fun c hc => (hwf_i c hc).1
      rw [show Item.render (Item.seg s) = s from rfl, pass2_append_noLB hs K d,
        ih hwf_t]
      rfl
    | link t =>
      obtain ⟨ht0, ht⟩ := hwf_i
      rw [show Item.render (Item.link t) = rawOf t from rfl,
        pass2_at_plain K d _ ht0 (fun c hc => (ht c hc).2.1), ih hwf_t]
      by_cases hmem : rawOf t ∈ K
      · simp [plainRep, pass2Item, hmem, Item.render]
      · simp [plainRep, pass2Item, hmem, Item.render]
    | alink t disp =>
      obtain ⟨ht0, hd0, ht, hd⟩ := hwf_i
      have hne : (t ++ '|' :: disp) ≠ [] := by simp
      have hrb : ∀ c ∈ t ++ '|' :: disp, c ≠ ']' := by
        intro c hc
        simp only [List.mem_append, List.mem_cons] at hc
        rcases hc with hc | rfl | hc
        · exact (ht c hc).2.1
        · decide
        · exact (hd c hc).2.1
      rw [show Item.render (Item.alink t disp) = rawOf (t ++ '|' :: disp) from rfl,
        pass2_at_plain K d _ hne hrb, ih hwf_t]
      by_cases hmem : rawOf (t ++ '|' :: disp) ∈ K
      · simp [plainRep, pass2Item, hmem, Item.render]
      · simp [plainRep, pass2Item, hmem, Item.render]

lemma clean_render (K : List (List Char)) (d : Bool) (items : List Item)
    (hwf : ∀ i ∈ items, ItemWF i) :
    cleanBrokenWikilinks (renderItems items) K d =
      renderItems (items.map (cleanItem K d)) := by
  rw [cleanBrokenWikilinks, pass1_render K d items hwf,
    pass2_render K d _ (by
      intro j hj
      simp only [List.mem_map] at hj
      obtain ⟨i, hi, rfl⟩ := hj
      exact pass1Item_wf (hwf i hi))]
  rw [List.map_map]
  rfl

lemma cleanItem_idem (K : List (List Char)) (d : Bool) (i : Item) :
    cleanItem K d (cleanItem K d i) = cleanItem K d i := by
  cases i with
  | seg s => rfl
  | link t =>
    by_cases hmem : rawOf t ∈ K
    · simp [cleanItem, pass1Item, pass2Item, hmem]
    · simp [cleanItem, pass1Item, pass2Item, hmem]
  | alink t disp =>
    by_cases hmem : rawOf t ∈ K
    · simp [cleanItem, pass1Item, pass2Item, hmem]
    · by_cases hmem2 : rawOf (t ++ '|' :: disp) ∈ K
      · simp [cleanItem, pass1Item, pass2Item, hmem, hmem2]
      · simp [cleanItem, pass1Item, pass2Item, hmem, hmem2]

/-! Lemmas about the registry loaders. -/

lemma wsDashB_ne_lb {c : Char} (h : wsDashB c = true) : c ≠ '[' := by
  intro rfl_eq
  subst rfl_eq
  simp [wsDashB, isWs] at h

lemma wsDashB_isWs {c : Char} (h : wsDashB c = false) : isWs c = false := by
  simp [wsDashB] at h
  exact h.1

/-- The sole key a line can contribute is always its leftmost bracket
expression: the whitespace/dash prefix contains no `[`, so the anchored
capture coincides with the first unanchored match. -/
lemma listCapture_first {line k : List Char} (h : listCapture line = some k) :
    ∃ inner, firstBracketInner line = some inner ∧ k = rawOf inner := by
  unfold listCapture at h
  match hma : matchPlainAt (line.dropWhile wsDashB) with
  | none => rw [hma] at h; exact Option.noConfusion h
  | some (inner, r) =>
    rw [hma] at h
    injection h with h
    refine ⟨inner, ?_, h.symm⟩
    obtain ⟨hl, hne, hrb⟩ := matchPlainAt_some hma
    have hpre : ∀ c ∈ line.takeWhile wsDashB, c ≠ '[' := fun c hc =>
      wsDashB_ne_lb (List.mem_takeWhile_imp hc)
    have hline : line = line.takeWhile wsDashB ++ (rawOf inner ++ r) := by
      conv_lhs => rw [← List.takeWhile_append_dropWhile wsDashB line]
      rw [hl]
    have hat : pass2Matches (rawOf inner ++ r) = inner :: pass2Matches r :=
      pass2Matches_cons_some (matchPlainAt_build inner r hne hrb)
    rw [firstBracketInner, hline, pass2Matches_append_noLB hpre, hat]
    rfl

lemma reportCapture_subsume {line k : List Char} (h : reportCapture line = some k) :
    listCapture line = some k := by
  unfold reportCapture at h
  unfold listCapture
  match hma : matchPlainAt (line.dropWhile wsDashB) with
  | none =>
    rw [hma] at h
    exact Option.noConfusion h
  | some (inner, r) =>
    rw [hma] at h
    have h2 : (if reportSuffixOk r = true then some (rawOf inner) else none) = some k := h
    by_cases hok : reportSuffixOk r = true
    · rw [if_pos hok] at h2
      exact h2
    · rw [if_neg hok] at h2
      exact Option.noConfusion h2

lemma lineKeyV1_eq (line : List Char) :
    lineKeyV1 line = if skipLine line then none else listCapture line := by
  unfold lineKeyV1
  split
  · rfl
  · match hrc : reportCapture line with
    | some k => rw [reportCapture_subsume hrc]
    | none => rfl

lemma lineKeyV1_first {line k : List Char} (h : lineKeyV1 line = some k) :
    ∃ inner, firstBracketInner line = some inner ∧ k = rawOf inner := by
  rw [lineKeyV1_eq] at h
  split at h
  · exact Option.noConfusion h
  · exact listCapture_first h

lemma lineKeyV2_first {line k : List Char} (h : lineKeyV2 line = some k) :
    ∃ inner, firstBracketInner line = some inner ∧ k = rawOf inner := by
  unfold lineKeyV2 at h
  match hlc : listCapture line with
  | some k0 =>
    rw [hlc] at h
    have h2 : some k0 = some k := h
    injection h2 with h2
    exact h2 ▸ listCapture_first hlc
  | none =>
    rw [hlc] at h
    match hfb : firstBracketInner line with
    | none =>
      rw [hfb] at h
      exact Option.noConfusion h
    | some inner =>
      rw [hfb] at h
      have h2 : (if isSubstr (' ' :: 'i' :: 'n' :: [' ']) line = true then none
          else some (rawOf inner)) = some k := h
      by_cases hs : isSubstr (' ' :: 'i' :: 'n' :: [' ']) line = true
      · rw [if_pos hs] at h2
        exact Option.noConfusion h2
      · rw [if_neg hs] at h2
        injection h2 with h2
        exact ⟨inner, rfl, h2.symm⟩

/-- Every interior collected by the plain-form scan is non-empty and free of
`]`. -/
lemma pass2Matches_sound :
    ∀ n l, l.length ≤ n → ∀ i ∈ pass2Matches l, i ≠ [] ∧ ∀ c ∈ i, c ≠ ']' := by
  intro n
  induction n with
  | zero =>
    intro l hn i hi
    match l with
    | [] => simp [pass2Matches_nil] at hi
    | c :: cs => simp at hn
  | succ n ih =>
    intro l hn i hi
    match l with
    | [] => simp [pass2Matches_nil] at hi
    | c :: cs =>
      match hma : matchPlainAt (c :: cs) with
      | some (inner, rest) =>
        have hlt := matchPlainAt_lt hma
        obtain ⟨_, hne, hrb⟩ := matchPlainAt_some hma
        rw [pass2Matches_cons_some hma] at hi
        simp only [List.mem_cons] at hi
        rcases hi with rfl | hi
        · exact ⟨hne, hrb⟩
        · exact ih rest (by simp only [List.length_cons] at hn hlt; omega) i hi
      | none =>
        rw [pass2Matches_cons_none hma] at hi
        exact ih cs (by simp only [List.length_cons] at hn; omega) i hi

/-- Shape invariant for keys produced by either loader. -/
def wellFormedKey (k : List Char) : Prop :=
  ∃ s, s ≠ [] ∧ (∀ c ∈ s, c ≠ ']') ∧ k = rawOf s

lemma lineKeyV1_wf {line k : List Char} (h : lineKeyV1 line = some k) :
    wellFormedKey k := by
  obtain ⟨inner, hfb, rfl⟩ := lineKeyV1_first h
  have : inner ∈ pass2Matches line := by
    unfold firstBracketInner at hfb
    exact List.mem_of_mem_head? hfb
  obtain ⟨hne, hrb⟩ := pass2Matches_sound line.length line (le_refl _) inner this
  exact ⟨inner, hne, hrb, rfl⟩

lemma lineKeyV2_wf {line k : List Char} (h : lineKeyV2 line = some k) :
    wellFormedKey k := by
  obtain ⟨inner, hfb, rfl⟩ := lineKeyV2_first h
  have : inner ∈ pass2Matches line := by
    unfold firstBracketInner at hfb
    exact List.mem_of_mem_head? hfb
  obtain ⟨hne, hrb⟩ := pass2Matches_sound line.length line (le_refl _) inner this
  exact ⟨inner, hne, hrb, rfl⟩

lemma dropWhile_rev_head {c : Char} (hc : isWs c = false) :
    ∀ A : List Char, ∃ tl, ((A ++ [c]).dropWhile isWs).reverse = c :: tl := by
  intro A
  induction A with
  | nil => exact ⟨[], by simp [List.dropWhile_cons, hc]⟩
  | cons a A ih =>
    by_cases ha : isWs a = true
    · obtain ⟨tl, htl⟩ := ih
      exact ⟨tl, by simp [List.dropWhile_cons, ha, htl]⟩
    · refine ⟨A.reverse ++ [a], ?_⟩
      simp only [List.cons_append, List.dropWhile_cons, ha]
      simp

lemma trim_head (c : Char) (cs : List Char) (h : isWs c = false) :
    ∃ tl, trimChars (c :: cs) = c :: tl := by
  obtain ⟨tl, htl⟩ := dropWhile_rev_head h cs.reverse
  refine ⟨tl, ?_⟩
  rw [trimChars, List.dropWhile_cons, h]
  simp only [Bool.false_eq_true, if_neg, ite_false]
  rw [show (c :: cs).reverse = cs.reverse ++ [c] by simp]
  exact htl

lemma skipLine_head {c : Char} {cs : List Char} (hws : isWs c = false)
    (hh : c ≠ '#') : skipLine (c :: cs) = false := by
  obtain ⟨tl, htl⟩ := trim_head c cs hws
  rw [skipLine, htl]
  simp [hh]

lemma lineKeyV1_plain_head {c : Char} {cs : List Char} (hwd : wsDashB c = false)
    (hlb : c ≠ '[') (hh : c ≠ '#') : lineKeyV1 (c :: cs) = none := by
  rw [lineKeyV1_eq, skipLine_head (wsDashB_isWs hwd) hh]
  simp only [Bool.false_eq_true, if_neg, ite_false]
  rw [listCapture, List.dropWhile_cons]
  simp only [hwd, Bool.false_eq_true, if_neg, ite_false]
  rw [matchPlainAt_none_head hlb]

lemma lineKeyV1_entry {t : List Char} (paths : List (List Char))
    (ht0 : t ≠ []) (ht : ∀ c ∈ t, c ≠ ']') :
    lineKeyV1 (renderEntryLine (rawOf t, paths)) = some (rawOf t) := by
  have hform : renderEntryLine (rawOf t, paths) =
      '-' :: ' ' :: (rawOf t ++
        (' ' :: 'i' :: 'n' :: ' ' :: joinCommaSp (paths.map rawOf))) := rfl
  have hskip : skipLine (renderEntryLine (rawOf t, paths)) = false := by
    rw [hform]
    exact skipLine_head (by decide) (by decide)
  rw [lineKeyV1_eq, hskip]
  simp only [Bool.false_eq_true, if_neg, ite_false]
  rw [hform, listCapture, List.dropWhile_cons]
  have h1 : wsDashB '-' = true := by decide
  have h2 : wsDashB ' ' = true := by decide
  rw [if_pos h1, List.dropWhile_cons, if_pos h2]
  have hcons : rawOf t ++ (' ' :: 'i' :: 'n' :: ' ' :: joinCommaSp (paths.map rawOf)) =
      '[' :: '[' :: (t ++ ']' :: ']' ::
        (' ' :: 'i' :: 'n' :: ' ' :: joinCommaSp (paths.map rawOf))) := by
    simp [rawOf]
  rw [hcons, List.dropWhile_cons]
  have h3 : wsDashB '[' = false := by decide
  rw [if_neg (by simp [h3])]
  have hbuild := matchPlainAt_build t
    (' ' :: 'i' :: 'n' :: ' ' :: joinCommaSp (paths.map rawOf)) ht0 ht
  rw [show rawOf t ++ (' ' :: 'i' :: 'n' :: ' ' :: joinCommaSp (paths.map rawOf)) =
      '[' :: '[' :: (t ++ ']' :: ']' ::
        (' ' :: 'i' :: 'n' :: ' ' :: joinCommaSp (paths.map rawOf))) from hcons] at hbuild
  rw [hbuild]

lemma splitLines_no_nl {l : List Char} (h : '\n' ∉ l) : splitLines l = [l] := by
  induction l with
  | nil => rfl
  | cons c cs ih =>
    have hc : c ≠ '\n' := fun hc => h (by simp [hc])
    rw [splitLines, if_neg hc, ih (fun hm => h (by simp [hm]))]

lemma splitLines_append {l rest : List Char} (h : '\n' ∉ l) :
    splitLines (l ++ '\n' :: rest) = l :: splitLines rest := by
  induction l with
  | nil => simp [splitLines]
  | cons c cs ih =>
    have hc : c ≠ '\n' := fun hc => h (by simp [hc])
    rw [List.cons_append, splitLines, if_neg hc, ih (fun hm => h (by simp [hm]))]

lemma splitLines_flatten {Ls : List (List Char)} (h : ∀ l ∈ Ls, '\n' ∉ l) :
    splitLines ((Ls.map (fun l => l ++ ['\n'])).flatten) = Ls ++ [[]] := by
  induction Ls with
  | nil => rfl
  | cons l Ls ih =>
    rw [List.map_cons, List.flatten_cons,
      show (l ++ ['\n']) ++ (Ls.map (fun l => l ++ ['\n'])).flatten =
        l ++ '\n' :: (Ls.map (fun l => l ++ ['\n'])).flatten by simp,
      splitLines_append (h l (by simp)), ih (fun x hx => h x (by simp [hx]))]
    rfl

lemma mem_joinCommaSp {c : Char} {xs : List (List Char)} (h : c ∈ joinCommaSp xs) :
    c = ',' ∨ c = ' ' ∨ ∃ x ∈ xs, c ∈ x := by
  induction xs with
  | nil => simp [joinCommaSp] at h
  | cons x xs ih =>
    match xs with
    | [] =>
      simp only [joinCommaSp] at h
      exact Or.inr (Or.inr ⟨x, by simp, h⟩)
    | y :: ys =>
      rw [show joinCommaSp (x :: y :: ys) = x ++ ',' :: ' ' :: joinCommaSp (y :: ys)
        from rfl] at h
      simp only [List.mem_append, List.mem_cons] at h
      rcases h with h | rfl | rfl | h
      · exact Or.inr (Or.inr ⟨x, by simp, h⟩)
      · exact Or.inl rfl
      · exact Or.inr (Or.inl rfl)
      · rcases ih h with h | h | ⟨z, hz, hc⟩
        · exact Or.inl h
        · exact Or.inr (Or.inl h)
        · exact Or.inr (Or.inr ⟨z, by simp [hz], hc⟩)

lemma rawOf_no_nl {t : List Char} (h : '\n' ∉ t) : '\n' ∉ rawOf t := by
  intro hm
  simp [rawOf] at hm
  exact h hm

lemma renderEntryLine_no_nl {t : List Char} {paths : List (List Char)}
    (htn : '\n' ∉ t) (hpn : ∀ p ∈ paths, '\n' ∉ p) :
    '\n' ∉ renderEntryLine (rawOf t, paths) := by
  intro hm
  rw [show renderEntryLine (rawOf t, paths) =
      '-' :: ' ' :: (rawOf t ++
        (' ' :: 'i' :: 'n' :: ' ' :: joinCommaSp (paths.map rawOf))) from rfl] at hm
  simp only [List.mem_cons, List.mem_append] at hm
  have hne1 : ('\n' : Char) ≠ '-' := by decide
  have hne2 : ('\n' : Char) ≠ ' ' := by decide
  have hne3 : ('\n' : Char) ≠ 'i' := by decide
  have hne4 : ('\n' : Char) ≠ 'n' := by decide
  rcases hm with hm | hm | hm | hm | hm | hm | hm | hm
  · exact hne1 hm
  · exact hne2 hm
  · exact rawOf_no_nl htn hm
  · exact hne2 hm
  · exact hne3 hm
  · exact hne4 hm
  · exact hne2 hm
  · rcases mem_joinCommaSp hm with h | h | ⟨x, hx, hc⟩
    · exact absurd h (by decide)
    · exact absurd h (by decide)
    · simp only [List.mem_map] at hx
      obtain ⟨p, hp, rfl⟩ := hx
      exact rawOf_no_nl (hpn p hp) hc

lemma filterMap_entryLines (entries : List (List Char × List (List Char)))
    (hent : ∀ e ∈ entries, ∃ t, e.1 = rawOf t ∧ t ≠ [] ∧ ∀ c ∈ t, c ≠ ']') :
    List.filterMap lineKeyV1 (entries.map renderEntryLine) =
      entries.map Prod.fst := by
  induction entries with
  | nil => rfl
  | cons e es ih =>
    obtain ⟨t, he1, ht0, htc⟩ := hent e (by simp)
    rw [List.map_cons, List.filterMap_cons, List.map_cons]
    rw [show renderEntryLine e = renderEntryLine (e.1, e.2) from rfl, he1]
    rw [lineKeyV1_entry e.2 ht0 htc]
    rw [ih (fun x hx => hent x (by simp [hx])), ← he1]

/-- Loading its own generated report gives the first-revision registry
exactly the keys of the report's entries. -/
lemma loadBrokenLinks_reportContent (stamp : List Char) (nB nC : Nat)
    (entries : List (List Char × List (List Char)))
    (hstamp : '\n' ∉ stamp)
    (hnB : '\n' ∉ (toString nB).toList) (hnC : '\n' ∉ (toString nC).toList)
    (hent : ∀ e ∈ entries, ∃ t, e.1 = rawOf t ∧ t ≠ [] ∧
      (∀ c ∈ t, c ≠ ']' ∧ c ≠ '\n') ∧ ∀ p ∈ e.2, '\n' ∉ p) :
    loadBrokenLinks (reportContent stamp nB nC entries) = entries.map Prod.fst := by
  have hnn : ∀ l ∈ reportLines stamp nB nC entries, '\n' ∉ l := by
    intro l hl
    simp only [reportLines, List.mem_append, List.mem_cons, List.mem_map] at hl
    rcases hl with (h1 | h1 | h1 | h1 | h1 | h1 | h1 | h1) | h1 | ⟨e, he, rfl⟩
    · subst h1; decide
    · subst h1; decide
    · subst h1
      intro hm
      simp only [List.mem_append] at hm
      rcases hm with hm | hm
      · revert hm; decide
      · exact hstamp hm
    · subst h1
      intro hm
      simp only [List.mem_append] at hm
      rcases hm with hm | hm
      · revert hm; decide
      · exact hnB hm
    · subst h1
      intro hm
      simp only [List.mem_append] at hm
      rcases hm with hm | hm
      · revert hm; decide
      · exact hnC hm
    · subst h1; decide
    · subst h1; decide
    · simp at h1
    · subst h1; simp
    · obtain ⟨t, he1, ht0, htc, hp⟩ := hent e he
      rw [show e = (e.1, e.2) from rfl, he1]
      exact renderEntryLine_no_nl (fun hm => (htc '\n' hm).2 rfl) hp
  unfold loadBrokenLinks reportContent
  rw [splitLines_flatten hnn]
  rw [reportLines]
  rw [List.filterMap_append, List.filterMap_append]
  have hG : lineKeyV1 ("Generated: ".toList ++ stamp) = none := by
    rw [show "Generated: ".toList ++ stamp = 'G' :: ("enerated: ".toList ++ stamp)
      from rfl]
    exact lineKeyV1_plain_head (by decide) (by decide) (by decide)
  have hT1 : lineKeyV1 ("Total broken links: ".toList ++ (toString nB).toList) =
      none := by
    rw [show "Total broken links: ".toList ++ (toString nB).toList =
      'T' :: ("otal broken links: ".toList ++ (toString nB).toList) from rfl]
    exact lineKeyV1_plain_head (by decide) (by decide) (by decide)
  have hT2 : lineKeyV1 ("Total links checked: ".toList ++ (toString nC).toList) =
      none := by
    rw [show "Total links checked: ".toList ++ (toString nC).toList =
      'T' :: ("otal links checked: ".toList ++ (toString nC).toList) from rfl]
    exact lineKeyV1_plain_head (by decide) (by decide) (by decide)
  have hhdr : List.filterMap lineKeyV1
      ["# Broken links report".toList, [],
       "Generated: ".toList ++ stamp,
       "Total broken links: ".toList ++ (toString nB).toList,
       "Total links checked: ".toList ++ (toString nC).toList,
       [], "## Broken links:".toList] = [] := by
    simp only [List.filterMap_cons, hG, hT1, hT2]
    rw [show lineKeyV1 "# Broken links report".toList = none by decide,
      show lineKeyV1 ([] : List Char) = none by decide,
      show lineKeyV1 "## Broken links:".toList = none by decide]
    rfl
  have hitems : List.filterMap lineKeyV1 (entries.map renderEntryLine) =
      entries.map Prod.fst := by
    refine filterMap_entryLines entries (fun e he => ?_)
    obtain ⟨t, he1, ht0, htc, hp⟩ := hent e he
    exact ⟨t, he1, ht0, fun c hc => (htc c hc).1⟩
  rw [hhdr]
  simp only [List.nil_append, List.filterMap_cons]
  rw [show lineKeyV1 ([] : List Char) = none by decide]
  rw [hitems]
  simp

lemma pipe_not_mem_rawOf {t : List Char} (h : ∀ c ∈ t, c ≠ '|') :
    '|' ∉ rawOf t := by
  intro hm
  simp [rawOf] at hm
  exact h '|' hm rfl

/-- A registered plain occurrence, on its own, is rewritten to its bare
target text (or deleted). -/
lemma clean_plain_occurrence {t : List Char} (K : List (List Char)) (d : Bool)
    (ht0 : t ≠ []) (ht : ∀ c ∈ t, c ≠ ']' ∧ c ≠ '|') (hmem : rawOf t ∈ K) :
    cleanBrokenWikilinks (rawOf t) K d = if d then [] else t := by
  unfold cleanBrokenWikilinks
  rw [pass1_nopipe (pipe_not_mem_rawOf (fun c hc => (ht c hc).2)) K d]
  have h2 := pass2_at_plain K d [] ht0 (fun c hc => (ht c hc).1)
  rw [List.append_nil, pass2_nil, List.append_nil] at h2
  rw [h2, plainRep, if_pos hmem]

/-- A registered alias occurrence, on its own, is rewritten to its display
text (or deleted). -/
lemma clean_alias_occurrence {t b : List Char} (K : List (List Char)) (d : Bool)
    (ht0 : t ≠ []) (ht : ∀ c ∈ t, c ≠ ']' ∧ c ≠ '|')
    (hb0 : b ≠ []) (hb : ∀ c ∈ b, c ≠ ']') (hmem : rawOf t ∈ K) :
    cleanBrokenWikilinks (rawOf (t ++ '|' :: b)) K d = if d then [] else b := by
  unfold cleanBrokenWikilinks
  have h1 := pass1_at_alias K d [] ht0 ht hb0 hb
  rw [List.append_nil, pass1_nil, List.append_nil] at h1
  rw [h1, aliasRep, if_pos hmem]
  cases d with
  | true => exact pass2_nil K true
  | false => exact pass2_noRB (fun hm => (hb ']' hm rfl).elim) K false

/-- The orphan set computed by `findOrphanFiles` is exactly the set of files
whose path is never the resolver-resolved target of any occurrence of any
file (including the file itself). -/
lemma findOrphanFiles_iff (resolve : List Char → String → Option String)
    (files : List MDFile) (f : MDFile) :
    f ∈ findOrphanFiles resolve files ↔
      f ∈ files ∧ ∀ g ∈ files, ∀ i ∈ pass2Matches g.content,
        resolve (splitPipe i) g.path ≠ some f.path := by
  unfold findOrphanFiles resolvedTargets
  rw [List.mem_filter]
  simp only [decide_eq_true_eq, List.mem_flatMap, List.mem_filterMap, not_exists,
    not_and]

instance : DecidablePred cleanChar := fun c =>
  decidable_of_iff (c ≠ '[' ∧ c ≠ ']' ∧ c ≠ '|') Iff.rfl

instance : DecidablePred ItemWF := fun i =>
  match i with
  | .seg s => decidable_of_iff (∀ c ∈ s, c ≠ '[' ∧ c ≠ ']') Iff.rfl
  | .link t => decidable_of_iff (t ≠ [] ∧ ∀ c ∈ t, cleanChar c) Iff.rfl
  | .alink t d =>
    decidable_of_iff
      (t ≠ [] ∧ d ≠ [] ∧ (∀ c ∈ t, cleanChar c) ∧ ∀ c ∈ d, cleanChar c) Iff.rfl

/-! # The claims -/

/-- C1, counterexample.  With `T = "[[a|b]]"` and `K = { "[[a|b]]" }`, the
key `[[a]]` of the unique occurrence of `T` is not a member of `K`
(its key is `[[targetText]] = [[a]]`, and `[[a]] ∉ K`), yet clean does not
return `T` unchanged: pass 2 rewrites the alias span because its full raw
text is a member of `K`.  This refutes the claim that every occurrence whose
key is not in `K` survives byte-for-byte, and that clean returns `T` itself
whenever no key matches any link of `T`. -/
theorem claim1_counterexample :
    (∀ i ∈ pass2Matches "[[a|b]]".toList,
      rawOf (splitPipe i) ∉ ["[[a|b]]".toList]) ∧
    cleanBrokenWikilinks "[[a|b]]".toList ["[[a|b]]".toList] false ≠
      "[[a|b]]".toList := by
  decide

/-- C1, amended.  If no match of the alias pass has its `[[target]]` key in
`K` and no match of the plain pass has its full `[[...]]` span in `K`, then
`cleanBrokenWikilinks` returns the text unchanged, the Rewriter reports
`changed = false`, and `cleanFile` performs no storage write (the vault is
returned untouched, write log included). -/
theorem claim1_frame (T : List Char) (K : List (List Char)) (d : Bool)
    (h1 : ∀ m ∈ pass1Matches T, rawOf m.1 ∉ K)
    (h2 : ∀ i ∈ pass2Matches T, rawOf i ∉ K) :
    cleanBrokenWikilinks T K d = T ∧ cleanPair T K d = (T, false) ∧
      (∀ (v : Vault) (p : String), v.content p = some T →
        cleanFile v p K d = (false, v)) ∧
      ∀ (v : Vault) (p : String) (text : List Char), v.content p = some text →
        cleanBrokenWikilinks text K d = text → cleanFile v p K d = (false, v) := by
  have hid : cleanBrokenWikilinks T K d = T := by
    rw [cleanBrokenWikilinks, pass1_id d h1, pass2_id d h2]
  refine ⟨hid, ?_, ?_, ?_⟩
  · rw [cleanPair]
    simp [hid]
  · intro v p hv
    rw [cleanFile, hv]
    simp [hid]
  · intro v p text hv hteq
    rw [cleanFile, hv]
    simp [hteq]

/-- Witness for C1: a text whose links are all valid for the key set. -/
theorem claim1_frame_witness :
    cleanBrokenWikilinks "See [[ok]] and [[x|y]].".toList
      ["[[gone]]".toList] false = "See [[ok]] and [[x|y]].".toList :=
  (claim1_frame "See [[ok]] and [[x|y]].".toList ["[[gone]]".toList] false
    (by decide) (by decide)).1

/-- C2.  Both revisions of the registry loader only ever take the FIRST
bracketed expression of a line as a key, and on the report line
`- [[Foo]] in [[Bar.md]], [[Baz.md]]` both loaders yield exactly the set
containing `[[Foo]]` (so neither `[[Bar.md]]` nor `[[Baz.md]]` is
captured). -/
theorem claim2_registry_first_bracket :
    (∀ line k : List Char, lineKeyV1 line = some k →
      ∃ inner, firstBracketInner line = some inner ∧ k = rawOf inner) ∧
    (∀ line k : List Char, lineKeyV2 line = some k →
      ∃ inner, firstBracketInner line = some inner ∧ k = rawOf inner) ∧
    loadBrokenLinks "- [[Foo]] in [[Bar.md]], [[Baz.md]]".toList =
      ["[[Foo]]".toList] ∧
    loadBrokenLinksAlt "- [[Foo]] in [[Bar.md]], [[Baz.md]]".toList =
      ["[[Foo]]".toList] :=
  ⟨fun _ _ h => lineKeyV1_first h, fun _ _ h => lineKeyV2_first h,
    by decide, by decide⟩

/-- Witness for C2 at the report-form line. -/
theorem claim2_witness :
    ∃ inner, firstBracketInner "- [[Foo]] in [[Bar.md]], [[Baz.md]]".toList =
      some inner ∧ "[[Foo]]".toList = rawOf inner :=
  claim2_registry_first_bracket.1 "- [[Foo]] in [[Bar.md]], [[Baz.md]]".toList
    "[[Foo]]".toList (by decide)

lemma splitPipe_no_pipe {t : List Char} (h : ∀ c ∈ t, c ≠ '|') :
    splitPipe t = t := by
  rw [splitPipe]
  exact List.takeWhile_eq_self_iff.mpr (fun c hc => by simp [h c hc])

lemma splitPipe_append (t b : List Char) (h : ∀ c ∈ t, c ≠ '|') :
    splitPipe (t ++ '|' :: b) = t := by
  rw [splitPipe]
  have hall : ∀ c ∈ t, (fun c => c != '|') c = true := fun c hc => by simp [h c hc]
  rw [List.takeWhile_append_of_pos hall]
  simp [List.takeWhile_cons]

/-- C3, counterexample.  The occurrence `[[a ]]` (trailing space in the
target) is filed by the scan under the trimmed key `[[a]]`; the registry
loaded from the generated report contains exactly that key; yet the Rewriter
leaves the occurrence `[[a ]]` unchanged under either flag, because its
membership tests use the untrimmed span.  So a registry entry for the
reported key does not clean every occurrence of that target. -/
theorem claim3_counterexample :
    scanKey "a ".toList = "[[a]]".toList ∧
    loadBrokenLinks
      (reportContent "ts".toList 1 1 [("[[a]]".toList, ["Home.md".toList])]) =
      ["[[a]]".toList] ∧
    cleanBrokenWikilinks "[[a ]]".toList ["[[a]]".toList] false =
      "[[a ]]".toList ∧
    cleanBrokenWikilinks "[[a ]]".toList ["[[a]]".toList] true =
      "[[a ]]".toList := by
  decide

/-- C3, amended.  (1) The scan key depends only on the targetText, so two
occurrences with the same targetText share one key; (2) the registry loaded
from a generated report is exactly the report's key set; (3)/(4) provided
the targetText is non-empty and already trimmed (and, for alias
occurrences, the display text is non-empty), a single registry entry for
the occurrence's scan key makes clean rewrite the occurrence.  Occurrences
whose target carries surrounding whitespace (or with empty target or
display) are reported under the trimmed key but not rewritten. -/
theorem claim3_scan_key_registry :
    (∀ i1 i2 : List Char, splitPipe i1 = splitPipe i2 →
      scanKey i1 = scanKey i2) ∧
    (∀ (stamp : List Char) (nB nC : Nat)
      (entries : List (List Char × List (List Char))),
      '\n' ∉ stamp → '\n' ∉ (toString nB).toList → '\n' ∉ (toString nC).toList →
      (∀ e ∈ entries, ∃ t, e.1 = rawOf t ∧ t ≠ [] ∧
        (∀ c ∈ t, c ≠ ']' ∧ c ≠ '\n') ∧ ∀ p ∈ e.2, '\n' ∉ p) →
      loadBrokenLinks (reportContent stamp nB nC entries) =
        entries.map Prod.fst) ∧
    (∀ (t : List Char) (K : List (List Char)) (d : Bool), t ≠ [] →
      (∀ c ∈ t, c ≠ ']' ∧ c ≠ '|') → trimChars t = t → rawOf t ∈ K →
      scanKey t = rawOf t ∧
        cleanBrokenWikilinks (rawOf t) K d = if d then [] else t) ∧
    (∀ (t b : List Char) (K : List (List Char)) (d : Bool), t ≠ [] →
      (∀ c ∈ t, c ≠ ']' ∧ c ≠ '|') → trimChars t = t → b ≠ [] →
      (∀ c ∈ b, c ≠ ']') → rawOf t ∈ K →
      scanKey (t ++ '|' :: b) = rawOf t ∧
        cleanBrokenWikilinks (rawOf (t ++ '|' :: b)) K d =
          if d then [] else b) := by
  refine ⟨?_, ?_, ?_, ?_⟩
  · intro i1 i2 h
    rw [scanKey, scanKey, scanLinkText, scanLinkText, h]
  · intro stamp nB nC entries h1 h2 h3 h4
    exact loadBrokenLinks_reportContent stamp nB nC entries h1 h2 h3 h4
  · intro t K d ht0 ht htrim hmem
    constructor
    · rw [scanKey, scanLinkText, splitPipe_no_pipe (fun c hc => (ht c hc).2),
        htrim]
    · exact clean_plain_occurrence K d ht0 ht hmem
  · intro t b K d ht0 ht htrim hb0 hb hmem
    constructor
    · rw [scanKey, scanLinkText, splitPipe_append t b (fun c hc => (ht c hc).2),
        htrim]
    · exact clean_alias_occurrence K d ht0 ht hb0 hb hmem

/-- Witness for C3: a trimmed target is rewritten from its reported key. -/
theorem claim3_witness :
    scanKey "a".toList = rawOf "a".toList ∧
      cleanBrokenWikilinks (rawOf "a".toList) ["[[a]]".toList] false =
        if false then [] else "a".toList :=
  claim3_scan_key_registry.2.2.1 "a".toList ["[[a]]".toList] false
    (by decide) (by decide) (by decide) (by decide)

/-- C4, counterexample.  `clean` is not idempotent: with
`T = "[[[[a]]a]]"` and `K = { "[[[[a]]", "[[aa]]" }` (both well-formed
bracket keys a registry can hold), one clean yields `"[[aa]]"` — pass 2's
replacement text is never rescanned within the same pass, but a second run
rescans it — and a second clean yields `"aa"`. -/
theorem claim4_counterexample :
    cleanBrokenWikilinks
      (cleanBrokenWikilinks "[[[[a]]a]]".toList
        ["[[[[a]]".toList, "[[aa]]".toList] false)
      ["[[[[a]]".toList, "[[aa]]".toList] false ≠
    cleanBrokenWikilinks "[[[[a]]a]]".toList
      ["[[[[a]]".toList, "[[aa]]".toList] false := by
  decide

/-- C4, amended.  `clean` is idempotent on well-formed texts (concatenations
of bracket-free segments and links whose target and display texts contain
none of `[`, `]`, `|`) for EVERY broken-key set `K` and either flag: every
replacement the two passes make on such a text is bracket-free, so a second
run finds nothing new to rewrite.  On texts with unbalanced or nested
brackets idempotence fails (see the counterexample). -/
theorem claim4_idempotent_wf (items : List Item) (K : List (List Char))
    (d : Bool) (hwf : ∀ i ∈ items, ItemWF i) :
    cleanBrokenWikilinks (cleanBrokenWikilinks (renderItems items) K d) K d =
      cleanBrokenWikilinks (renderItems items) K d := by
  rw [clean_render K d items hwf]
  rw [clean_render K d (items.map (cleanItem K d))
    (by
      intro j hj
      simp only [List.mem_map] at hj
      obtain ⟨i, hi, rfl⟩ := hj
      exact cleanItem_wf (hwf i hi))]
  rw [List.map_map]
  congr 1
  exact List.map_congr_left (fun i _ => cleanItem_idem K d i)

/-- Witness for C4 on a concrete well-formed text, with a key set that also
holds a pipe key (so pass 2 rewrites the full alias span). -/
theorem claim4_witness :
    cleanBrokenWikilinks
      (cleanBrokenWikilinks
        (renderItems [Item.seg "see ".toList, Item.link "gone".toList,
          Item.alink "a".toList "b".toList])
        ["[[gone]]".toList, "[[a|b]]".toList] false)
      ["[[gone]]".toList, "[[a|b]]".toList] false =
    cleanBrokenWikilinks
      (renderItems [Item.seg "see ".toList, Item.link "gone".toList,
        Item.alink "a".toList "b".toList])
      ["[[gone]]".toList, "[[a|b]]".toList] false :=
  claim4_idempotent_wf _ _ false (by decide)

/-- C5, counterexample.  The alias occurrence `[[a|]]` (empty display text)
has key `[[a]] ∈ K`, but with `deleteText = false` it is not rewritten to
its display text: pass 1's regex requires a non-empty display part, so the
occurrence survives unchanged (and likewise it is not deleted when
`deleteText = true`). -/
theorem claim5_counterexample :
    "[[a]]".toList ∈ ["[[a]]".toList] ∧
    cleanBrokenWikilinks "[[a|]]".toList ["[[a]]".toList] false =
      "[[a|]]".toList ∧
    cleanBrokenWikilinks "[[a|]]".toList ["[[a]]".toList] true =
      "[[a|]]".toList ∧
    "[[a|]]".toList ≠ ([] : List Char) := by
  decide

/-- C5, amended.  For occurrences with non-empty target and display texts
(the target free of `]` and `|`, the display free of `]`, as the matched
forms require), membership of `[[a]].` ... precisely: `[[a|b]]` rewrites to
exactly `b` under `deleteText = false` and to the empty string under
`deleteText = true`; `[[a]]` rewrites to `a`, resp. the empty string; and
adjacent text is preserved literally (`"x [[a]] y"` becomes `"x  y"` under
deletion). -/
theorem claim5_rewrites (a b : List Char) (K : List (List Char))
    (ha0 : a ≠ []) (ha : ∀ c ∈ a, c ≠ ']' ∧ c ≠ '|')
    (hb0 : b ≠ []) (hb : ∀ c ∈ b, c ≠ ']') (hmem : rawOf a ∈ K) :
    cleanBrokenWikilinks (rawOf (a ++ '|' :: b)) K false = b ∧
    cleanBrokenWikilinks (rawOf (a ++ '|' :: b)) K true = [] ∧
    cleanBrokenWikilinks (rawOf a) K false = a ∧
    cleanBrokenWikilinks (rawOf a) K true = [] ∧
    cleanBrokenWikilinks ('x' :: ' ' :: (rawOf a ++ [' ', 'y'])) K true =
      ['x', ' ', ' ', 'y'] := by
  refine ⟨?_, ?_, ?_, ?_, ?_⟩
  · exact clean_alias_occurrence K false ha0 ha hb0 hb hmem
  · exact clean_alias_occurrence K true ha0 ha hb0 hb hmem
  · exact clean_plain_occurrence K false ha0 ha hmem
  · exact clean_plain_occurrence K true ha0 ha hmem
  · rw [cleanBrokenWikilinks]
    have hnp : '|' ∉ 'x' :: ' ' :: (rawOf a ++ [' ', 'y']) := by
      intro hm
      simp only [List.mem_cons, List.mem_append] at hm
      rcases hm with hm | hm | hm | hm
      · exact absurd hm (by decide)
      · exact absurd hm (by decide)
      · exact pipe_not_mem_rawOf (fun c hc => (ha c hc).2) hm
      · simp at hm
    rw [pass1_nopipe hnp K true]
    have hx : matchPlainAt ('x' :: ' ' :: (rawOf a ++ [' ', 'y'])) = none :=
      matchPlainAt_none_head (by decide)
    rw [pass2_cons_none K true hx]
    have hsp : matchPlainAt (' ' :: (rawOf a ++ [' ', 'y'])) = none :=
      matchPlainAt_none_head (by decide)
    rw [pass2_cons_none K true hsp]
    rw [pass2_at_plain K true [' ', 'y'] ha0 (fun c hc => (ha c hc).1)]
    rw [plainRep, if_pos hmem]
    rw [pass2_noRB (by decide) K true]
    rfl

/-- Witness for C5. -/
theorem claim5_witness :
    cleanBrokenWikilinks (rawOf ("a".toList ++ '|' :: "b".toList))
      ["[[a]]".toList] false = "b".toList :=
  (claim5_rewrites "a".toList "b".toList ["[[a]]".toList]
    (by decide) (by decide) (by decide) (by decide) (by decide)).1

/-- C6, counterexample.  The line `# [[A]]` is blank-free but begins with a
heading marker and fails the list-item shape, yet the second-revision loader
(src/main.ts lines 661-697) extracts the key `[[A]]` from it, because its
fallback branch takes the first bracket of ANY line not containing
`" in "`.  So "no key is ever produced from such a line" fails for that
revision (the first revision does skip it). -/
theorem claim6_counterexample :
    skipLine "# [[A]]".toList = true ∧
    listCapture "# [[A]]".toList = none ∧
    loadBrokenLinksAlt "# [[A]]".toList = ["[[A]]".toList] ∧
    loadBrokenLinks "# [[A]]".toList = [] := by
  decide

/-- C6, amended.  The first-revision loader processes its input line by
line, skips blank lines and lines whose trimmed text begins with `#`, and
produces a key from a line exactly when the list-item shape (optional
whitespace/dash prefix followed immediately by a bracketed link) matches —
the second revision does not skip heading lines (see the counterexample). -/
theorem claim6_loader_v1 :
    (∀ content : List Char, loadBrokenLinks content =
      (splitLines content).filterMap
        (fun l => if skipLine l then none else listCapture l)) ∧
    (∀ line : List Char, skipLine line = true → lineKeyV1 line = none) ∧
    (∀ line : List Char, listCapture line = none → lineKeyV1 line = none) := by
  refine ⟨?_, ?_, ?_⟩
  · intro content
    rw [loadBrokenLinks]
    congr 1
    funext l
    exact lineKeyV1_eq l
  · intro line h
    rw [lineKeyV1_eq, h]
    rfl
  · intro line h
    rw [lineKeyV1_eq]
    split
    · rfl
    · exact h

/-- Witness for C6: a heading line yields no key in the first revision. -/
theorem claim6_witness : lineKeyV1 "## Broken links:".toList = none :=
  claim6_loader_v1.2.1 "## Broken links:".toList (by decide)

/-- C7, counterexample.  With `K = ∅` the alias form `[[a|b]]` survives
pass 1 untouched, and pass 2's scan then matches the whole span `[[a|b]]`,
whose interior contains a `|`.  So it is not true that the plain-form pass
only ever sees remaining `[[...]]` matches without a pipe. -/
theorem claim7_counterexample :
    pass1 [] false "[[a|b]]".toList = "[[a|b]]".toList ∧
    pass2Matches (pass1 [] false "[[a|b]]".toList) = ["a|b".toList] ∧
    '|' ∈ "a|b".toList := by
  decide

/-- C7, amended.  Pass 1 consumes (rewrites) exactly the alias forms whose
`[[target]]` key is registered; an alias form whose key is NOT in `K`
survives pass 1 verbatim and is then matched whole by pass 2's plain-form
regex, pipe included (pass 2 rewrites it only if the full
`[[target|display]]` string itself is a member of `K`). -/
theorem claim7_alias_seen_by_pass2 (a b : List Char) (K : List (List Char))
    (d : Bool) (ha0 : a ≠ []) (ha : ∀ c ∈ a, c ≠ ']' ∧ c ≠ '|')
    (hb0 : b ≠ []) (hb : ∀ c ∈ b, c ≠ ']') (hnot : rawOf a ∉ K) :
    pass1 K d (rawOf (a ++ '|' :: b)) = rawOf (a ++ '|' :: b) ∧
    pass2Matches (pass1 K d (rawOf (a ++ '|' :: b))) = [a ++ '|' :: b] ∧
    '|' ∈ a ++ '|' :: b := by
  have h1 := pass1_at_alias K d [] ha0 ha hb0 hb
  rw [List.append_nil, pass1_nil, List.append_nil] at h1
  rw [aliasRep, if_neg hnot] at h1
  have hinner0 : (a ++ '|' :: b) ≠ [] := by simp
  have hinner : ∀ c ∈ a ++ '|' :: b, c ≠ ']' := by
    intro c hc
    simp only [List.mem_append, List.mem_cons] at hc
    rcases hc with hc | rfl | hc
    · exact (ha c hc).1
    · decide
    · exact hb c hc
  have h2 : pass2Matches (rawOf (a ++ '|' :: b)) = [a ++ '|' :: b] := by
    have hb2 := pass2Matches_cons_some
      (matchPlainAt_build (a ++ '|' :: b) [] hinner0 hinner)
    rw [pass2Matches_nil] at hb2
    calc pass2Matches (rawOf (a ++ '|' :: b))
        = pass2Matches (rawOf (a ++ '|' :: b) ++ []) := by rw [List.append_nil]
      _ = [a ++ '|' :: b] := hb2
  exact ⟨h1, by rw [h1]; exact h2, by simp⟩

/-- Witness for C7. -/
theorem claim7_witness :
    pass1 ["[[z]]".toList] false (rawOf ("a".toList ++ '|' :: "b".toList)) =
      rawOf ("a".toList ++ '|' :: "b".toList) :=
  (claim7_alias_seen_by_pass2 "a".toList "b".toList ["[[z]]".toList] false
    (by decide) (by decide) (by decide) (by decide) (by decide)).1

/-- C8.  A read or write failure on one document is caught locally:
`cleanFile` reports the document as not cleaned and leaves the vault — write
log included — untouched, and the vault-wide pass over the remaining
documents proceeds exactly as if the failing document had been skipped. -/
theorem claim8_error_isolation (K : List (List Char)) (d : Bool) (v : Vault)
    (xs : List String) (p : String) (ys : List String)
    (hfail : (cleanAllFilesGo K d v xs).2.content p = none ∨
      (cleanAllFilesGo K d v xs).2.canWrite p = false) :
    cleanFile (cleanAllFilesGo K d v xs).2 p K d =
      (false, (cleanAllFilesGo K d v xs).2) ∧
    cleanAllFilesGo K d v (xs ++ p :: ys) = cleanAllFilesGo K d v (xs ++ ys) := by
  have hstep : cleanFile (cleanAllFilesGo K d v xs).2 p K d =
      (false, (cleanAllFilesGo K d v xs).2) := by
    rcases hfail with hf | hf
    · rw [cleanFile, hf]
    · unfold cleanFile
      match hc : (cleanAllFilesGo K d v xs).2.content p with
      | none => rfl
      | some text =>
        by_cases he : cleanBrokenWikilinks text K d = text
        · simp [he]
        · simp [he, hf]
  refine ⟨hstep, ?_⟩
  rw [cleanAllFilesGo_append K d v xs (p :: ys), cleanAllFilesGo_append K d v xs ys]
  have hcons : cleanAllFilesGo K d (cleanAllFilesGo K d v xs).2 (p :: ys) =
      cleanAllFilesGo K d (cleanAllFilesGo K d v xs).2 ys := by
    rw [show cleanAllFilesGo K d (cleanAllFilesGo K d v xs).2 (p :: ys) =
      ((if (cleanFile (cleanAllFilesGo K d v xs).2 p K d).1 then 1 else 0) +
        (cleanAllFilesGo K d (cleanFile (cleanAllFilesGo K d v xs).2 p K d).2 ys).1,
       (cleanAllFilesGo K d (cleanFile (cleanAllFilesGo K d v xs).2 p K d).2 ys).2)
      from rfl, hstep]
    simp
  rw [hcons]

/-- Witness for C8 on a concrete two-document vault whose first document
fails to read. -/
theorem claim8_witness :
    cleanFile
      (cleanAllFilesGo ["[[gone]]".toList] false
        (Vault.mk ["bad.md", "good.md"]
          (fun q => if q = "bad.md" then none else some "[[gone]]".toList)
          (fun _ => true) []) []).2
      "bad.md" ["[[gone]]".toList] false =
      (false,
        (cleanAllFilesGo ["[[gone]]".toList] false
          (Vault.mk ["bad.md", "good.md"]
            (fun q => if q = "bad.md" then none else some "[[gone]]".toList)
            (fun _ => true) []) []).2) :=
  (claim8_error_isolation ["[[gone]]".toList] false
    (Vault.mk ["bad.md", "good.md"]
      (fun q => if q = "bad.md" then none else some "[[gone]]".toList)
      (fun _ => true) [])
    [] "bad.md" ["good.md"] (Or.inl (by decide))).1

/-- The resolver and single-document vault of the C9 counterexample: one
document `A.md` whose content links to itself. -/
def resolveSelf : List Char → String → Option String :=
  fun t _ => if t = "A".toList then some "A.md" else none

def vaultSelf : List MDFile := [MDFile.mk "A.md" "[[A]]".toList]

/-- C9, counterexample.  In a vault whose only document links to itself, the
document receives zero incoming links from OTHER documents, yet
`findOrphanFiles` does not report it as an orphan: the code counts
self-links as incoming.  So the orphan set is not "exactly the documents
with zero incoming wiki-links from other documents" — that description and
the recorded-target one are not equivalent, and the code implements the
latter. -/
theorem claim9_counterexample :
    findOrphanFiles resolveSelf vaultSelf = [] ∧
    (∀ g ∈ vaultSelf, g.path ≠ "A.md" → ∀ i ∈ pass2Matches g.content,
      resolveSelf (splitPipe i) g.path ≠ some "A.md") := by
  constructor
  · decide
  · intro g hg hne
    simp only [vaultSelf, List.mem_singleton] at hg
    subst hg
    exact absurd rfl hne

/-- C9, amended.  The orphan set computed by `findOrphanFiles` is exactly
the set of documents whose path never appears as the resolver-resolved
target of any link occurrence in any document of the set — including the
document itself, so self-links count as incoming links. -/
theorem claim9_orphans (resolve : List Char → String → Option String)
    (files : List MDFile) (f : MDFile) :
    f ∈ findOrphanFiles resolve files ↔
      f ∈ files ∧ ∀ g ∈ files, ∀ i ∈ pass2Matches g.content,
        resolve (splitPipe i) g.path ≠ some f.path :=
  findOrphanFiles_iff resolve files f

/-- Witness for C9: a vault `A → B`, `C` isolated; `C.md` is an orphan. -/
theorem claim9_witness :
    MDFile.mk "C.md" [] ∈ findOrphanFiles
      (fun t _ => if t = "B".toList then some "B.md" else none)
      [MDFile.mk "A.md" "[[B]]".toList, MDFile.mk "B.md" [],
        MDFile.mk "C.md" []] :=
  (claim9_orphans (fun t _ => if t = "B".toList then some "B.md" else none)
    [MDFile.mk "A.md" "[[B]]".toList, MDFile.mk "B.md" [],
      MDFile.mk "C.md" []] (MDFile.mk "C.md" [])).mpr
    ⟨by decide, by decide⟩

/-- C10.  Every key either revision of the registry loader ever produces has
the exact shape `[[s]]` with `s` a non-empty string containing no `]`
character, whatever the registry document's content. -/
theorem claim10_key_shape (content k : List Char)
    (h : k ∈ loadBrokenLinks content ∨ k ∈ loadBrokenLinksAlt content) :
    wellFormedKey k := by
  rcases h with h | h
  · rw [loadBrokenLinks, List.mem_filterMap] at h
    obtain ⟨line, _, hk⟩ := h
    exact lineKeyV1_wf hk
  · rw [loadBrokenLinksAlt, List.mem_filterMap] at h
    obtain ⟨line, _, hk⟩ := h
    exact lineKeyV2_wf hk

/-- Witness for C10. -/
theorem claim10_witness : wellFormedKey "[[Foo]]".toList :=
  claim10_key_shape "- [[Foo]] in [[Bar.md]], [[Baz.md]]".toList
    "[[Foo]]".toList (Or.inl (by decide))

end BrokenLinksCleaner
